import Mathlib

/-!
Verification of the active-sampling / masking / stopping-rule subsystem of
the Variational Information Pursuit MNIST training script (`main_mnist.py`).

The script's own control flow (temperature schedule, evaluation rollout,
metric logging) is embedded from the source.  The helper module `ops`
(stopping criterion, random and adaptive samplers) is not part of the
provided sources, so those functions are modelled from the specification,
as marked in their doc comments.
-/

/- ===================== Configuration constants ===================== -/

/-- `QUERY_ALL = 676  # 26*26` from the setup section of `main_mnist.py`. -/
def QUERY_ALL : ℕ := 676

/-- `PATCH_SIZE = 3` from the setup section of `main_mnist.py`. -/
def PATCH_SIZE : ℕ := 3

/-- `THRESHOLD = 0.85` from the setup section of `main_mnist.py`. -/
def THRESHOLD : ℚ := 85 / 100

/-- Height of an MNIST image (the dataset loaded by the script). -/
def MNIST_H : ℕ := 28

/-- Width of an MNIST image (the dataset loaded by the script). -/
def MNIST_W : ℕ := 28

/- ===================== Stopping criterion ===================== -/

/-- Maximum class probability of one step's class distribution. -/
def stepMax (probs : List ℚ) : ℚ := probs.foldr max 0

/-- Modelled from the spec: the per-sample core of `ops.compute_queries_needed`
(the `ops` module is not among the provided sources).  Input: the ordered
sequence of per-step class-probability distributions for one sample.  Returns
the smallest 1-based step index whose maximum class probability exceeds the
threshold, and the sequence length when no step crosses the threshold. -/
def queriesNeededOne (thr : ℚ) : List (List ℚ) → ℕ
  | [] => 0
  | s :: rest => if thr < stepMax s then 1 else 1 + queriesNeededOne thr rest

/-- Modelled from the spec: `ops.compute_queries_needed(logits, threshold)`,
batched over samples; each sample is reduced independently. -/
def compute_queries_needed (batch : List (List (List ℚ))) (thr : ℚ) : List ℕ :=
  batch.map (queriesNeededOne thr)

/-- The scenario sequence from the spec: five steps whose maximum class
probabilities are 0.2, 0.4, 0.6, 0.91, 0.95. -/
def scenarioSeq : List (List ℚ) :=
  [[2/10, 2/10, 2/10, 2/10, 2/10],
   [4/10, 4/10, 2/10],
   [6/10, 4/10],
   [91/100, 9/100],
   [95/100, 5/100]]

lemma queriesNeededOne_le_length (thr : ℚ) :
    ∀ seq : List (List ℚ), queriesNeededOne thr seq ≤ seq.length := by
  intro seq
  induction seq with
  | nil => simp [queriesNeededOne]
  | cons s rest ih =>
      by_cases h : thr < stepMax s
      · simp [queriesNeededOne, h]
      · simp only [queriesNeededOne, h, if_false, List.length_cons]
        omega

lemma queriesNeededOne_pos (thr : ℚ) (seq : List (List ℚ)) (h : seq ≠ []) :
    1 ≤ queriesNeededOne thr seq := by
  cases seq with
  | nil => exact absurd rfl h
  | cons s rest =>
      by_cases hc : thr < stepMax s
      · simp [queriesNeededOne, hc]
      · simp only [queriesNeededOne, hc, if_false]
        omega

lemma queriesNeededOne_of_first_cross (thr : ℚ) :
    ∀ (seq : List (List ℚ)) (i : ℕ), i < seq.length →
      thr < stepMax (seq.getD i []) →
      (∀ j < i, ¬ thr < stepMax (seq.getD j [])) →
      queriesNeededOne thr seq = i + 1 := by
  intro seq
  induction seq with
  | nil => intro i hi; simp at hi
  | cons s rest ih =>
      intro i hi hcross hmin
      cases i with
      | zero =>
          simp only [List.getD_cons_zero] at hcross
          simp [queriesNeededOne, hcross]
      | succ i' =>
          have hs : ¬ thr < stepMax s := by
            have := hmin 0 (Nat.succ_pos i')
            simpa using this
          simp only [queriesNeededOne, hs, if_false]
          have hlen : i' < rest.length := by
            simpa [Nat.succ_lt_succ_iff] using hi
          have hcross' : thr < stepMax (rest.getD i' []) := by
            simpa using hcross
          have hmin' : ∀ j < i', ¬ thr < stepMax (rest.getD j []) := by
            intro j hj
            have := hmin (j + 1) (by omega)
            simpa using this
          rw [ih i' hlen hcross' hmin']
          omega

lemma queriesNeededOne_of_no_cross (thr : ℚ) :
    ∀ seq : List (List ℚ),
      (∀ i < seq.length, ¬ thr < stepMax (seq.getD i [])) →
      queriesNeededOne thr seq = seq.length := by
  intro seq
  induction seq with
  | nil => intro; simp [queriesNeededOne]
  | cons s rest ih =>
      intro hno
      have hs : ¬ thr < stepMax s := by
        have := hno 0 (by simp)
        simpa using this
      simp only [queriesNeededOne, hs, if_false, List.length_cons]
      have : queriesNeededOne thr rest = rest.length := by
        apply ih
        intro i hi
        have := hno (i + 1) (by simp; omega)
        simpa using this
      omega

/-- C1: for every logits sequence and every sample, `compute_queries_needed`
returns the smallest 1-based step index at which the maximum class probability
exceeds the threshold, and the sequence length (`max_queries_test`) when no
step crosses the threshold; on a sample whose per-step max-class probabilities
are 0.2, 0.4, 0.6, 0.91, 0.95 with threshold 0.85 it returns 4. -/
theorem compute_queries_needed_first_crossing
    (batch : List (List (List ℚ))) (thr : ℚ) (n : ℕ) (hn : n < batch.length) :
    (∀ i < (batch.getD n []).length,
        thr < stepMax ((batch.getD n []).getD i []) →
        (∀ j < i, ¬ thr < stepMax ((batch.getD n []).getD j [])) →
        (compute_queries_needed batch thr).getD n 0 = i + 1) ∧
    ((∀ i < (batch.getD n []).length,
        ¬ thr < stepMax ((batch.getD n []).getD i [])) →
        (compute_queries_needed batch thr).getD n 0 = (batch.getD n []).length) ∧
    queriesNeededOne (85/100) scenarioSeq = 4 := by
  have hmap : (compute_queries_needed batch thr).getD n 0
      = queriesNeededOne thr (batch.getD n []) := by
    unfold compute_queries_needed
    rw [List.getD_eq_getElem?_getD, List.getElem?_map]
    rw [List.getD_eq_getElem?_getD]
    cases h : batch[n]? with
    | none =>
        exfalso
        rw [List.getElem?_eq_none_iff] at h
        omega
    | some v => simp [h, Option.map_some]
  refine ⟨?_, ?_, ?_⟩
  · intro i hi hcross hmin
    rw [hmap]
    exact queriesNeededOne_of_first_cross thr _ i hi hcross hmin
  · intro hno
    rw [hmap]
    exact queriesNeededOne_of_no_cross thr _ hno
  · norm_num [scenarioSeq, queriesNeededOne, stepMax]

/-- Concrete instantiation of C1 on the spec's scenario sequence. -/
theorem compute_queries_needed_first_crossing_witness :
    (0 : ℕ) < 1 ∧ (3 : ℕ) < scenarioSeq.length ∧
    (compute_queries_needed [scenarioSeq] (85/100)).getD 0 0 = 4 := by
  refine ⟨Nat.zero_lt_one, by norm_num [scenarioSeq], ?_⟩
  have h := compute_queries_needed_first_crossing [scenarioSeq] (85/100) 0
    (by norm_num)
  exact h.1 3 (by norm_num [scenarioSeq])
    (by norm_num [scenarioSeq, stepMax])
    (by
      intro j hj
      interval_cases j <;> norm_num [scenarioSeq, stepMax])

/-- C2: every value returned by `compute_queries_needed` on a batch whose
sequences all have length `max_queries_test > 0` lies in `[1, max_queries_test]`,
so indexing the stacked logits at `queries_needed - 1` is in bounds. -/
theorem compute_queries_needed_bounded
    (batch : List (List (List ℚ))) (thr : ℚ) (T : ℕ) (hT : 0 < T)
    (hlen : ∀ s ∈ batch, s.length = T) :
    ∀ q ∈ compute_queries_needed batch thr, 1 ≤ q ∧ q ≤ T ∧ q - 1 < T := by
  intro q hq
  unfold compute_queries_needed at hq
  rw [List.mem_map] at hq
  obtain ⟨s, hs, rfl⟩ := hq
  have hlen' := hlen s hs
  have hne : s ≠ [] := by
    intro h
    rw [h] at hlen'
    simp at hlen'
    omega
  have h1 := queriesNeededOne_pos thr s hne
  have h2 := queriesNeededOne_le_length thr s
  rw [hlen'] at h2
  exact ⟨h1, h2, by omega⟩

/-- Concrete instantiation of C2 on the scenario sequence. -/
theorem compute_queries_needed_bounded_witness :
    ((0 : ℕ) < 5 ∧ ∀ s ∈ [scenarioSeq], s.length = 5) ∧
    (1 ≤ queriesNeededOne (85/100) scenarioSeq ∧
     queriesNeededOne (85/100) scenarioSeq ≤ 5 ∧
     queriesNeededOne (85/100) scenarioSeq - 1 < 5) := by
  have hmem : queriesNeededOne (85/100) scenarioSeq
      ∈ compute_queries_needed [scenarioSeq] (85/100) := by
    simp [compute_queries_needed]
  refine ⟨⟨by norm_num, ?_⟩, ?_⟩
  · intro s hs
    simp only [List.mem_singleton] at hs
    rw [hs]; rfl
  · exact compute_queries_needed_bounded [scenarioSeq] (85/100) 5 (by norm_num)
      (by intro s hs; simp only [List.mem_singleton] at hs; rw [hs]; rfl)
      _ hmem

/- ===================== Patch geometry of the configuration ===================== -/

/-- C4 counterexample: with the script's configured constants (28×28 MNIST
images, `PATCH_SIZE = 3`, `QUERY_ALL = 676`), the claimed square-tiling formula
`P = (H / patch_size) × (W / patch_size)` with `patch_size` dividing the image
dimensions does not hold: 3 does not divide 28 and (28/3)·(28/3) = 81 ≠ 676. -/
theorem patch_geometry_division_fails :
    ¬ (QUERY_ALL = (MNIST_H / PATCH_SIZE) * (MNIST_W / PATCH_SIZE) ∧
       PATCH_SIZE ∣ MNIST_H ∧ PATCH_SIZE ∣ MNIST_W) := by
  decide

/-- C4 amended: the configured `QUERY_ALL = 676 = 26·26` matches the
sliding-window patch count `(H − patch_size + 1) × (W − patch_size + 1)` for
28×28 images with `PATCH_SIZE = 3`, and `PATCH_SIZE` does not divide the image
dimension. -/
theorem patch_geometry_sliding_window :
    QUERY_ALL = (MNIST_H - PATCH_SIZE + 1) * (MNIST_W - PATCH_SIZE + 1) ∧
    ¬ PATCH_SIZE ∣ MNIST_H := by
  decide

/- ===================== Temperature schedule ===================== -/

/-- `np.linspace(args.tau_start, args.tau_end, args.epochs)` evaluated at
index `i` (line 89 of `main_mnist.py`): `num ≥ 2` gives the affine
interpolation with step `(e − s)/(num − 1)`; `num = 1` gives `[s]`. -/
def tau_vals (s e : ℚ) (epochs : ℕ) (i : ℕ) : ℚ :=
  if epochs ≤ 1 then s else s + (e - s) * i / (epochs - 1 : ℕ)

/-- One training batch (lines 94–126): `querier.module.update_tau(tau)` is
executed first, then the querier forward pass reads the querier's current
temperature.  The state is (trace of `(epoch, tau seen by the forward pass)`
pairs, current querier temperature). -/
def trainBatchStep (s e : ℚ) (epochs ep : ℕ) (st : List (ℕ × ℚ) × ℚ) :
    List (ℕ × ℚ) × ℚ :=
  let updated := tau_vals s e epochs ep
  (st.1 ++ [(ep, updated)], updated)

/-- One training epoch (lines 92–127): `tau = tau_vals[epoch]` then the batch
loop. -/
def trainEpochStep (s e : ℚ) (epochs numBatches ep : ℕ)
    (st : List (ℕ × ℚ) × ℚ) : List (ℕ × ℚ) × ℚ :=
  (List.range numBatches).foldl (fun st2 _ => trainBatchStep s e epochs ep st2) st

/-- The whole training loop's temperature behaviour: the querier is built with
`tau = args.tau_start` (line 81), then every epoch runs its batches. -/
def trainTauTrace (s e : ℚ) (epochs numBatches : ℕ) : List (ℕ × ℚ) × ℚ :=
  (List.range epochs).foldl
    (fun st ep => trainEpochStep s e epochs numBatches ep st) ([], s)

lemma foldl_preserves {α β : Type} (P : β → Prop) (f : β → α → β)
    (hf : ∀ b a, P b → P (f b a)) :
    ∀ (l : List α) (b : β), P b → P (l.foldl f b) := by
  intro l
  induction l with
  | nil => intro b hb; exact hb
  | cons a t ih => intro b hb; exact ih (f b a) (hf b a hb)

lemma trainTauTrace_trace (s e : ℚ) (epochs numBatches : ℕ) :
    ∀ x ∈ (trainTauTrace s e epochs numBatches).1,
      x.2 = tau_vals s e epochs x.1 := by
  have hbatch : ∀ (ep : ℕ) (st : List (ℕ × ℚ) × ℚ),
      (∀ x ∈ st.1, x.2 = tau_vals s e epochs x.1) →
      ∀ x ∈ (trainBatchStep s e epochs ep st).1, x.2 = tau_vals s e epochs x.1 := by
    intro ep st hst x hx
    unfold trainBatchStep at hx
    simp only [List.mem_append, List.mem_singleton] at hx
    rcases hx with hx | hx
    · exact hst x hx
    · rw [hx]
  have hepoch : ∀ (st : List (ℕ × ℚ) × ℚ) (ep : ℕ),
      (∀ x ∈ st.1, x.2 = tau_vals s e epochs x.1) →
      ∀ x ∈ (trainEpochStep s e epochs numBatches ep st).1,
        x.2 = tau_vals s e epochs x.1 := by
    intro st ep hst
    unfold trainEpochStep
    exact foldl_preserves (fun st2 => ∀ x ∈ st2.1, x.2 = tau_vals s e epochs x.1)
      (fun st2 _ => trainBatchStep s e epochs ep st2)
      (fun b a hb => hbatch ep b hb) (List.range numBatches) st hst
  unfold trainTauTrace
  exact foldl_preserves (fun st => ∀ x ∈ st.1, x.2 = tau_vals s e epochs x.1)
    (fun st ep => trainEpochStep s e epochs numBatches ep st)
    (fun b a hb => hepoch b a hb) (List.range epochs) ([], s)
    (by intro x hx; simp at hx)

/-- C7: the temperature used at epoch `e` is the `e`-th entry of the linear
interpolation from `tau_start` to `tau_end` over `epochs` points — it is set on
the querier before every training batch, so every querier forward pass of epoch
`ep` sees `tau_vals[ep]`; the first epoch uses `tau_start`, the last epoch uses
`tau_end`, and when `tau_start ≥ tau_end` the per-epoch temperature sequence is
monotonically non-increasing. -/
theorem tau_schedule_correct (s e : ℚ) (epochs numBatches : ℕ)
    (h2 : 2 ≤ epochs) :
    (∀ x ∈ (trainTauTrace s e epochs numBatches).1,
        x.2 = tau_vals s e epochs x.1) ∧
    tau_vals s e epochs 0 = s ∧
    tau_vals s e epochs (epochs - 1) = e ∧
    (e ≤ s → ∀ i j : ℕ, i ≤ j → tau_vals s e epochs j ≤ tau_vals s e epochs i) := by
  have hn : ¬ epochs ≤ 1 := by omega
  have hpos : (0 : ℚ) < (epochs - 1 : ℕ) := by
    have : 1 ≤ epochs - 1 := by omega
    exact_mod_cast Nat.lt_of_lt_of_le Nat.zero_lt_one this
  refine ⟨trainTauTrace_trace s e epochs numBatches, ?_, ?_, ?_⟩
  · simp [tau_vals, hn]
  · unfold tau_vals
    rw [if_neg hn]
    rw [mul_div_assoc, div_self (ne_of_gt hpos)]
    ring
  · intro hmono i j hij
    unfold tau_vals
    rw [if_neg hn, if_neg hn]
    have hle : (e - s) * (j : ℚ) ≤ (e - s) * (i : ℚ) := by
      apply mul_le_mul_of_nonpos_left _ (by linarith)
      exact_mod_cast hij
    have hdiv := (div_le_div_iff_of_pos_right hpos).mpr hle
    linarith

/-- Concrete instantiation of C7 with the script's default configuration
`tau_start = 1.0`, `tau_end = 0.2`, `epochs = 100`. -/
theorem tau_schedule_correct_witness :
    ((2 : ℕ) ≤ 100 ∧ (2/10 : ℚ) ≤ 1) ∧
    (tau_vals 1 (2/10) 100 0 = 1 ∧ tau_vals 1 (2/10) 100 99 = 2/10 ∧
     tau_vals 1 (2/10) 100 1 ≤ tau_vals 1 (2/10) 100 0) := by
  have h := tau_schedule_correct 1 (2/10) 100 3 (by norm_num)
  exact ⟨⟨by norm_num, by norm_num⟩, h.2.1, h.2.2.1,
    h.2.2.2 (by norm_num) 0 1 (by norm_num)⟩

/- ===================== Evaluation rollout ===================== -/

/-- The collaborators of one evaluation batch (lines 141–156 of
`main_mnist.py`): the querier's per-sample hard argmax selection
(`query_vec.argmax(dim=1)`), the classifier, `ops.update_masked_image`
specialised to the batch's fixed true images, and the all-placeholder
initial input `torch.zeros_like(test_images)`. -/
structure EvalCtx (N P : ℕ) (Img L : Type) where
  querier : Img → (Fin N → Finset (Fin P)) → Fin N → Fin P
  classifier : Img → L
  update_masked_image : Img → (Fin N → Fin P) → Img
  zeros : Img

/-- The state mutated by the evaluation loop: `test_inputs` and `mask`
(the mask row of sample `n` is the set of its revealed patch indices). -/
structure EvalState (N P : ℕ) (Img : Type) where
  inputs : Img
  mask : Fin N → Finset (Fin P)

/-- `test_inputs = torch.zeros_like(...)`, `mask = torch.zeros(N, QUERY_ALL)`
(lines 147–148). -/
def initEvalState {N P : ℕ} {Img L : Type} (c : EvalCtx N P Img L) :
    EvalState N P Img :=
  ⟨c.zeros, fun _ => ∅⟩

/-- State update of one iteration of the evaluation loop (lines 151–154):
select, then set `mask[n, argmax] = 1` and reveal the selected patch. -/
def evalStepState {N P : ℕ} {Img L : Type} (c : EvalCtx N P Img L)
    (s : EvalState N P Img) : EvalState N P Img :=
  let q := c.querier s.inputs s.mask
  { inputs := c.update_masked_image s.inputs q
    mask := fun n => insert (q n) (s.mask n) }

/-- The evaluation state after `t` iterations. -/
def evalStateAt {N P : ℕ} {Img L : Type} (c : EvalCtx N P Img L) (t : ℕ) :
    EvalState N P Img :=
  (evalStepState c)^[t] (initEvalState c)

/-- The evaluation loop `for i in range(args.max_queries_test)` (lines
149–156): each iteration computes `query_vec` and `label_logits` from the
current `test_inputs`, then updates mask and inputs, then appends the logits
and the query to the recorded sequences.  Returns the final state and the
recorded `logits` and `queries` lists. -/
def evalRollout {N P : ℕ} {Img L : Type} (c : EvalCtx N P Img L) (T : ℕ) :
    EvalState N P Img × List L × List (Fin N → Fin P) :=
  (List.range T).foldl
    (fun acc _ =>
      (evalStepState c acc.1,
       acc.2.1 ++ [c.classifier acc.1.inputs],
       acc.2.2 ++ [c.querier acc.1.inputs acc.1.mask]))
    (initEvalState c, [], [])

lemma evalStateAt_succ {N P : ℕ} {Img L : Type} (c : EvalCtx N P Img L) (t : ℕ) :
    evalStateAt c (t + 1) = evalStepState c (evalStateAt c t) := by
  unfold evalStateAt
  rw [Function.iterate_succ_apply']

lemma evalRollout_eq {N P : ℕ} {Img L : Type} (c : EvalCtx N P Img L) (T : ℕ) :
    evalRollout c T =
      (evalStateAt c T,
       (List.range T).map (fun i => c.classifier (evalStateAt c i).inputs),
       (List.range T).map
         (fun i => c.querier (evalStateAt c i).inputs (evalStateAt c i).mask)) := by
  induction T with
  | zero => simp [evalRollout, evalStateAt]
  | succ T ih =>
      unfold evalRollout at ih ⊢
      rw [List.range_succ, List.foldl_append, ih, List.foldl_cons, List.foldl_nil,
        evalStateAt_succ]
      simp [List.map_append]

lemma getD_map_range {α : Type} (f : ℕ → α) (T i : ℕ) (hi : i < T) (d : α) :
    ((List.range T).map f).getD i d = f i := by
  rw [List.getD_eq_getElem?_getD, List.getElem?_map, List.getElem?_range hi]
  rfl

lemma evalStateAt_card_le {N P : ℕ} {Img L : Type} (c : EvalCtx N P Img L) :
    ∀ (t : ℕ) (n : Fin N), ((evalStateAt c t).mask n).card ≤ t := by
  intro t
  induction t with
  | zero => intro n; simp [evalStateAt, initEvalState]
  | succ t ih =>
      intro n
      rw [evalStateAt_succ]
      exact le_trans (Finset.card_insert_le _ _) (Nat.succ_le_succ (ih n))

/-- C3: within an evaluation rollout the query mask is non-decreasing step
over step: a step replaces each sample's mask row by an `insert` (it only
sets entries, never clears them), so every revealed patch before a step is
still revealed after it, and the mask rows at earlier iteration counts are
subsets of those at later counts. -/
theorem eval_mask_monotone {N P : ℕ} {Img L : Type} (c : EvalCtx N P Img L)
    (t u : ℕ) (htu : t ≤ u) :
    (∀ (s : EvalState N P Img) (n : Fin N),
        (evalStepState c s).mask n =
          insert (c.querier s.inputs s.mask n) (s.mask n)) ∧
    (∀ (s : EvalState N P Img) (n : Fin N), s.mask n ⊆ (evalStepState c s).mask n) ∧
    (∀ n : Fin N, (evalStateAt c t).mask n ⊆ (evalStateAt c u).mask n) := by
  refine ⟨fun s n => rfl, fun s n => Finset.subset_insert _ _, ?_⟩
  intro n
  induction u, htu using Nat.le_induction with
  | base => exact Finset.Subset.refl _
  | succ u hu ih =>
      refine ih.trans ?_
      rw [evalStateAt_succ]
      exact Finset.subset_insert _ _

/-- A concrete evaluation context on one sample and two patches, used to
instantiate the rollout theorems. -/
def evalCtxEx : EvalCtx 1 2 ℕ ℕ where
  querier := fun _ _ _ => 0
  classifier := fun img => img
  update_masked_image := fun img _ => img + 1
  zeros := 0

/-- Concrete instantiation of C3. -/
theorem eval_mask_monotone_witness :
    (0 : ℕ) ≤ 2 ∧ (evalStateAt evalCtxEx 0).mask 0 ⊆ (evalStateAt evalCtxEx 2).mask 0 := by
  exact ⟨by decide, (eval_mask_monotone evalCtxEx 0 2 (by decide)).2.2 0⟩

/-- C8: every evaluation rollout runs exactly `max_queries_test` acquisition
steps with no early exit — for every querier and classifier behaviour the
recorded logits and queries sequences have length exactly `max_queries_test`
and the final state is the `max_queries_test`-fold iterate of the step. -/
theorem eval_rollout_fixed_length {N P : ℕ} {Img L : Type}
    (c : EvalCtx N P Img L) (T : ℕ) :
    (evalRollout c T).2.1.length = T ∧
    (evalRollout c T).2.2.length = T ∧
    (evalRollout c T).1 = evalStateAt c T := by
  rw [evalRollout_eq]
  simp

/-- C10: each evaluation step invokes the classifier on the partial image
before that step's selected patch is revealed: the logits recorded at 1-based
step `t` are the classifier applied to the state after `t − 1` reveal steps,
whose mask holds at most `t − 1` patches; the first recorded logits come from
the all-placeholder zero image with an empty mask; and the post-loop
`label_logits` used for `acc_max` is the last recorded logits, computed from
the state after `max_queries_test − 1` reveal steps. -/
theorem eval_logits_before_reveal {N P : ℕ} {Img L : Type}
    (c : EvalCtx N P Img L) (T : ℕ) (d : L) (t : ℕ) (h1 : 1 ≤ t) (hT : t ≤ T) :
    ((evalRollout c T).2.1.getD (t - 1) d =
        c.classifier (evalStateAt c (t - 1)).inputs) ∧
    (∀ n : Fin N, ((evalStateAt c (t - 1)).mask n).card ≤ t - 1) ∧
    ((evalRollout c T).2.1.getD 0 d = c.classifier c.zeros) ∧
    ((evalStateAt c 0).inputs = c.zeros ∧ ∀ n : Fin N, (evalStateAt c 0).mask n = ∅) ∧
    ((evalRollout c T).2.1.getLast? =
        some (c.classifier (evalStateAt c (T - 1)).inputs)) := by
  have hT1 : 1 ≤ T := le_trans h1 hT
  refine ⟨?_, fun n => evalStateAt_card_le c (t - 1) n, ?_, ⟨rfl, fun n => rfl⟩, ?_⟩
  · rw [evalRollout_eq]
    exact getD_map_range _ T (t - 1) (by omega) d
  · rw [evalRollout_eq]
    have h0 := getD_map_range (fun i => c.classifier (evalStateAt c i).inputs) T 0
      (by omega) d
    simpa [evalStateAt, initEvalState] using h0
  · rw [evalRollout_eq]
    simp only [List.getLast?_eq_getElem?, List.length_map, List.length_range]
    rw [List.getElem?_map, List.getElem?_range (by omega : T - 1 < T)]
    rfl

/-- Concrete instantiation of C10. -/
theorem eval_logits_before_reveal_witness :
    ((1 : ℕ) ≤ 1 ∧ (1 : ℕ) ≤ 2) ∧
    (evalRollout evalCtxEx 2).2.1.getD 0 0 =
      evalCtxEx.classifier (evalStateAt evalCtxEx 0).inputs ∧
    ((evalStateAt evalCtxEx 0).mask 0).card ≤ 0 := by
  have h := eval_logits_before_reveal evalCtxEx 2 0 1 (by decide) (by decide)
  exact ⟨⟨by decide, by decide⟩, h.1, h.2.1 0⟩

/- ===================== Random sampler ===================== -/

/-- Modelled from the spec: `ops.random_sampling(max_queries, P, batch_size)`
(the `ops` module is not among the provided sources).  Each row draws a
uniformly random subset of `max_queries` distinct patch indices; the random
draw is abstracted as a per-row permutation of the patch index space, the row
revealing the patches placed at the first `max_queries` positions of its
permutation (all of them when `max_queries ≥ P`). -/
def random_sampling (k P n : ℕ) (order : Fin n → Equiv.Perm (Fin P)) :
    Fin n → Finset (Fin P) :=
  fun r => Finset.univ.filter (fun p => (((order r).symm p : Fin P) : ℕ) < k)

lemma card_filter_val_lt (P k : ℕ) :
    (Finset.univ.filter (fun q : Fin P => (q : ℕ) < k)).card = min k P := by
  by_cases h : P ≤ k
  · rw [Finset.filter_true_of_mem, Finset.card_univ, Fintype.card_fin,
      Nat.min_eq_right h]
    intro q _
    exact lt_of_lt_of_le q.isLt h
  · push_neg at h
    have heq : Finset.univ.filter (fun q : Fin P => (q : ℕ) < k)
        = Finset.Iio (⟨k, h⟩ : Fin P) := by
      ext q
      simp [Finset.mem_Iio, Fin.lt_def]
    rw [heq, Fin.card_Iio, Nat.min_eq_left (le_of_lt h)]

lemma random_sampling_row_card (k P n : ℕ)
    (order : Fin n → Equiv.Perm (Fin P)) (r : Fin n) :
    (random_sampling k P n order r).card = min k P := by
  rw [← card_filter_val_lt P k]
  apply Finset.card_bij (fun p _ => (order r).symm p)
  · intro p hp
    simp only [random_sampling, Finset.mem_filter, Finset.mem_univ, true_and] at hp
    simp [hp]
  · intro p hp p' hp' hpp
    exact (order r).symm.injective hpp
  · intro q hq
    simp only [Finset.mem_filter, Finset.mem_univ, true_and] at hq
    refine ⟨(order r) q, ?_, by simp⟩
    simp [random_sampling, hq]

/-- C5: for every budget `k`, patch count `P` and batch size `n`,
`random_sampling` returns a mask with exactly `min(k, P)` ones in every row;
a budget `k ≥ P` is not an error but yields an all-ones mask. -/
theorem random_sampling_budget_exact (k P n : ℕ)
    (order : Fin n → Equiv.Perm (Fin P)) :
    (∀ r : Fin n, (random_sampling k P n order r).card = min k P) ∧
    (P ≤ k → ∀ (r : Fin n) (p : Fin P), p ∈ random_sampling k P n order r) := by
  refine ⟨random_sampling_row_card k P n order, ?_⟩
  intro hk r p
  simp only [random_sampling, Finset.mem_filter, Finset.mem_univ, true_and]
  exact lt_of_lt_of_le ((order r).symm p).isLt hk

/-- Concrete instantiation of C5 with budget 3 over 2 patches. -/
theorem random_sampling_budget_exact_witness :
    (2 : ℕ) ≤ 3 ∧
    (random_sampling 3 2 1 (fun _ => Equiv.refl (Fin 2)) 0).card = min 3 2 ∧
    (0 : Fin 2) ∈ random_sampling 3 2 1 (fun _ => Equiv.refl (Fin 2)) 0 := by
  refine ⟨by norm_num, ?_, ?_⟩
  · exact (random_sampling_budget_exact 3 2 1 (fun _ => Equiv.refl (Fin 2))).1 0
  · exact (random_sampling_budget_exact 3 2 1 (fun _ => Equiv.refl (Fin 2))).2
      (by norm_num) 0 0

/- ===================== Adaptive sampler ===================== -/

/-- Modelled from the spec: one step of the `ops.adaptive_sampling` rollout
(the `ops` module is not among the provided sources).  The querier selects one
never-yet-queried patch per sample from the current mask state; the selection
is revealed only for samples whose individual budget has not yet been reached,
samples at their budget are held fixed. -/
def adaptiveStep (n P : ℕ) (sel : (Fin n → Finset (Fin P)) → Fin n → Fin P)
    (budget : Fin n → ℕ) (mask : Fin n → Finset (Fin P)) :
    Fin n → Finset (Fin P) :=
  fun i => if (mask i).card < budget i then insert (sel mask i) (mask i) else mask i

/-- Modelled from the spec: `ops.adaptive_sampling(images, num_queries,
querier, patch_size, P)` builds the mask by rolling the querier out from an
all-zero mask until every sample's budget is reached, i.e. for
`max(num_queries)` steps.  The querier (with the batch's fixed true images,
of which the partial image is a function) is abstracted as the selection
function `sel` on the current mask state. -/
def adaptive_sampling (n P : ℕ) (sel : (Fin n → Finset (Fin P)) → Fin n → Fin P)
    (budget : Fin n → ℕ) : Fin n → Finset (Fin P) :=
  (adaptiveStep n P sel budget)^[Finset.univ.sup budget] (fun _ => ∅)

lemma adaptiveStep_card (n P : ℕ) (sel : (Fin n → Finset (Fin P)) → Fin n → Fin P)
    (budget : Fin n → ℕ)
    (hsel : ∀ (m : Fin n → Finset (Fin P)) (i : Fin n), (m i).card < P → sel m i ∉ m i)
    (hbud : ∀ i, budget i < P) :
    ∀ (t : ℕ) (i : Fin n),
      (((adaptiveStep n P sel budget)^[t] (fun _ => ∅)) i).card = min t (budget i) := by
  intro t
  induction t with
  | zero => intro i; simp
  | succ t ih =>
      intro i
      rw [Function.iterate_succ_apply']
      set m := (adaptiveStep n P sel budget)^[t] (fun _ => ∅) with hm
      have hstep : adaptiveStep n P sel budget m i
          = if (m i).card < budget i then insert (sel m i) (m i) else m i := rfl
      rw [hstep]
      by_cases hlt : (m i).card < budget i
      · rw [if_pos hlt]
        have hnotmem := hsel m i (lt_trans hlt (hbud i))
        rw [Finset.card_insert_of_not_mem hnotmem, ih i]
        rw [ih i] at hlt
        omega
      · rw [if_neg hlt, ih i]
        rw [ih i] at hlt
        omega

/-- C6: `adaptive_sampling` returns a mask in which sample `i` has exactly
`num_queries[i]` ones, for every sample whose budget lies in `[0, P)` — the
range supplied by the call site's `torch.randint(low=0, high=QUERY_ALL, ...)`
— provided the querier only ever selects never-yet-queried patches. -/
theorem adaptive_sampling_budget_exact (n P : ℕ)
    (sel : (Fin n → Finset (Fin P)) → Fin n → Fin P) (budget : Fin n → ℕ)
    (hsel : ∀ (m : Fin n → Finset (Fin P)) (i : Fin n), (m i).card < P → sel m i ∉ m i)
    (hbud : ∀ i, budget i < P) :
    ∀ i, (adaptive_sampling n P sel budget i).card = budget i := by
  intro i
  unfold adaptive_sampling
  rw [adaptiveStep_card n P sel budget hsel hbud _ i]
  exact Nat.min_eq_right (Finset.le_sup (Finset.mem_univ i))

/-- A concrete querier selection on one sample and two patches: pick patch 1
when patch 0 is already revealed, else patch 0. -/
def selEx : (Fin 1 → Finset (Fin 2)) → Fin 1 → Fin 2 :=
  fun m i => if (0 : Fin 2) ∈ m i then 1 else 0

/-- Concrete instantiation of C6 with a budget of 1 over 2 patches. -/
theorem adaptive_sampling_budget_exact_witness :
    ((∀ (m : Fin 1 → Finset (Fin 2)) (i : Fin 1), (m i).card < 2 → selEx m i ∉ m i) ∧
     (∀ i : Fin 1, (fun _ : Fin 1 => 1) i < 2)) ∧
    (adaptive_sampling 1 2 selEx (fun _ => 1) 0).card = 1 := by
  refine ⟨⟨by decide, by decide⟩, ?_⟩
  exact adaptive_sampling_budget_exact 1 2 selEx (fun _ => 1) (by decide) (by decide) 0

/- ===================== Evaluation metric logging ===================== -/

/-- The per-batch quantities the evaluation statistics of lines 157–164 are
computed from: the final `label_logits` argmax, the IP prediction
`test_pred_ip`, the labels, and `queries_needed`, each listed per sample. -/
structure TestBatchData where
  predMax : List ℕ
  predIp : List ℕ
  labels : List ℕ
  qneeded : List ℕ

/-- Number of positions at which two per-sample lists agree
(`(pred == labels).float().sum()`). -/
def countEq (a b : List ℕ) : ℕ := (a.zip b).countP (fun x => x.1 == x.2)

/-- `acc_max = (label_logits.argmax(dim=1) == test_labels).float().mean()
* (N / len(testset))` (lines 157–158). -/
def accMaxStat (total : ℕ) (b : TestBatchData) : ℚ :=
  ((countEq b.predMax b.labels : ℚ) / b.labels.length) * ((b.labels.length : ℚ) / total)

/-- `acc_ip = (test_pred_ip == test_labels).float().mean() * (N / len(testset))`
(line 162). -/
def accIpStat (total : ℕ) (b : TestBatchData) : ℚ :=
  ((countEq b.predIp b.labels : ℚ) / b.labels.length) * ((b.labels.length : ℚ) / total)

/-- `qry_need_avg = queries_needed.float().mean() * (N / len(testset))`
(line 163). -/
def qryAvgStat (total : ℕ) (b : TestBatchData) : ℚ :=
  ((b.qneeded.map (fun q => (q : ℚ))).sum / b.qneeded.length) *
    ((b.qneeded.length : ℚ) / total)

/-- `qry_need_std = queries_needed.float().std() * (N / len(testset))`
(line 164); torch's unbiased sample standard deviation. -/
noncomputable def qryStdStat (total : ℕ) (b : TestBatchData) : ℝ :=
  Real.sqrt
    (((b.qneeded.map
        (fun q => ((q : ℝ) -
          (b.qneeded.map (fun x => (x : ℝ))).sum / b.qneeded.length) ^ 2)).sum) /
      ((b.qneeded.length : ℝ) - 1)) *
    ((b.qneeded.length : ℝ) / total)

/-- The four variables written by one iteration of the test-batch loop. -/
structure EvalLog where
  accMax : ℚ
  accIp : ℚ
  qryAvg : ℚ
  qryStd : ℝ

/-- The assignments of one iteration of the test-batch loop (lines 157–164). -/
noncomputable def batchLog (total : ℕ) (b : TestBatchData) : EvalLog :=
  ⟨accMaxStat total b, accIpStat total b, qryAvgStat total b, qryStdStat total b⟩

/-- The test-batch loop (lines 141–164): each batch overwrites the four
statistic variables; `wandb.log` (lines 166–172) then reads the values left
by the final iteration. -/
noncomputable def evalEpochLog (total : ℕ) (batches : List TestBatchData)
    (start : EvalLog) : EvalLog :=
  batches.foldl (fun _ b => batchLog total b) start

/-- Global mean accuracy over the whole test set, the alternative semantics
named by the spec (total correct over total samples). -/
def globalAccMax (batches : List TestBatchData) : ℚ :=
  ((batches.map (fun b => (countEq b.predMax b.labels : ℚ))).sum) /
    ((batches.map (fun b => (b.labels.length : ℚ))).sum)

lemma foldl_const_last {α β : Type} (f : α → β) (start : β) :
    ∀ (l : List α) (h : l ≠ []), l.foldl (fun _ b => f b) start = f (l.getLast h) := by
  intro l
  induction l generalizing start with
  | nil => intro h; exact absurd rfl h
  | cons a t ih =>
      intro h
      cases t with
      | nil => simp [List.getLast]
      | cons b t' =>
          rw [List.foldl_cons, ih (f a) (by simp)]
          congr 1

/-- The two-batch test set on which the logged accuracy differs from the
global mean: the first batch's single sample is classified correctly, the
second batch's single sample is not. -/
def twoBatchEx : List TestBatchData :=
  [⟨[0], [0], [0], [1]⟩, ⟨[1], [1], [0], [1]⟩]

/-- C9: the logged metrics `test_acc_max`, `test_acc_ip`, `qry_need_avg` and
`qry_need_std` equal the corresponding statistic of the final test batch
alone, scaled by `N / len(testset)` with `N` that batch's size — every earlier
batch's statistics are overwritten and contribute nothing; consequently with
more than one test batch the logged value differs from the global mean (shown
on a concrete two-batch test set). -/
theorem eval_logging_last_batch_only (total : ℕ) (batches : List TestBatchData)
    (start : EvalLog) (h : batches ≠ []) :
    evalEpochLog total batches start = batchLog total (batches.getLast h) ∧
    (evalEpochLog 2 twoBatchEx start).accMax ≠ globalAccMax twoBatchEx := by
  constructor
  · exact foldl_const_last (batchLog total) start batches h
  · have hlast : evalEpochLog 2 twoBatchEx start
        = batchLog 2 (twoBatchEx.getLast (by simp [twoBatchEx])) :=
      foldl_const_last (batchLog 2) start twoBatchEx (by simp [twoBatchEx])
    rw [hlast]
    show accMaxStat 2 (twoBatchEx.getLast _) ≠ globalAccMax twoBatchEx
    norm_num [twoBatchEx, accMaxStat, globalAccMax, countEq, List.getLast]

/-- Concrete instantiation of C9 on the two-batch test set. -/
theorem eval_logging_last_batch_only_witness :
    twoBatchEx ≠ [] ∧
    evalEpochLog 2 twoBatchEx ⟨0, 0, 0, 0⟩
      = batchLog 2 (twoBatchEx.getLast (by simp [twoBatchEx])) := by
  refine ⟨by simp [twoBatchEx], ?_⟩
  exact (eval_logging_last_batch_only 2 twoBatchEx ⟨0, 0, 0, 0⟩
    (by simp [twoBatchEx])).1
